import Mathlib

/-
Verification of the formula parser and interval solver
(files formula_parser.py and solver.py of the repository).

The Python sources are shallowly embedded below: real numbers of the
program (Python floats, including ±infinity) are modelled as an extended
rational type EF; Python dictionaries become association lists whose
lookup takes the first matching key; code that can raise an exception
returns Except/Option.
-/

set_option maxHeartbeats 1000000

/- Mathlib seals the arithmetic on ℚ behind `irreducible`; reopen it so
that concrete runs of the embedded solver evaluate by `rfl`/`decide`.
This only changes elaboration-time transparency, not the kernel. -/
set_option allowUnsafeReducibility true
attribute [local semireducible] Rat.add Rat.mul Rat.inv Rat.div Rat.sub Rat.neg

namespace OOP

/-! ## Extended rationals (Python floats with ±infinity) -/

/-- A Python float value as used by the solver: a finite rational or one of
the two infinities. -/
inductive EF where
  | ninf : EF
  | fin : ℚ → EF
  | pinf : EF
deriving DecidableEq

/-- The Python `<=` comparison on extended values. -/
def EF.leB : EF → EF → Bool
  | .ninf, _ => true
  | .fin _, .ninf => false
  | .fin a, .fin b => decide (a ≤ b)
  | .fin _, .pinf => true
  | .pinf, .pinf => true
  | .pinf, .ninf => false
  | .pinf, .fin _ => false

/-- The Python `<` comparison on extended values. -/
def EF.ltB (a b : EF) : Bool := !EF.leB b a

/-- Python `max` of two values: returns the second iff it is strictly
greater than the first. -/
def EF.maxE (a b : EF) : EF := if EF.ltB a b then b else a

/-- Python `math.isinf`. -/
def EF.isInf : EF → Bool
  | .fin _ => false
  | _ => true

/-- Extract the finite part (meaningful only on `fin` values). -/
def EF.toQ : EF → ℚ
  | .fin q => q
  | _ => 0

theorem EF.leB_refl (a : EF) : EF.leB a a = true := by
  cases a <;> simp [EF.leB]

theorem EF.leB_trans {a b c : EF} (h1 : EF.leB a b = true) (h2 : EF.leB b c = true) :
    EF.leB a c = true := by
  cases a <;> cases b <;> cases c <;> simp_all [EF.leB] <;> exact le_trans h1 h2

theorem EF.leB_total (a b : EF) : EF.leB a b = true ∨ EF.leB b a = true := by
  cases a <;> cases b <;> simp [EF.leB] <;> exact le_total _ _

theorem EF.leB_antisymm {a b : EF} (h1 : EF.leB a b = true) (h2 : EF.leB b a = true) :
    a = b := by
  cases a <;> cases b <;> simp_all [EF.leB]
  exact le_antisymm h1 h2

theorem EF.ltB_iff {a b : EF} : EF.ltB a b = true ↔ ¬ EF.leB b a = true := by
  simp [EF.ltB]

theorem EF.leB_of_ltB {a b : EF} (h : EF.ltB a b = true) : EF.leB a b = true := by
  rcases EF.leB_total a b with h1 | h1
  · exact h1
  · exact absurd h1 (EF.ltB_iff.mp h)

theorem EF.ltB_trans {a b c : EF} (h1 : EF.ltB a b = true) (h2 : EF.ltB b c = true) :
    EF.ltB a c = true := by
  rw [EF.ltB_iff] at *
  intro hca
  exact h1 (EF.leB_trans (EF.leB_of_ltB (EF.ltB_iff.mpr h2)) hca)

theorem EF.ltB_of_ltB_of_leB {a b c : EF} (h1 : EF.ltB a b = true) (h2 : EF.leB b c = true) :
    EF.ltB a c = true := by
  rw [EF.ltB_iff] at *
  intro hca
  exact h1 (EF.leB_trans h2 hca)

theorem EF.ltB_of_leB_of_ltB {a b c : EF} (h1 : EF.leB a b = true) (h2 : EF.ltB b c = true) :
    EF.ltB a c = true := by
  rw [EF.ltB_iff] at *
  intro hca
  exact h2 (EF.leB_trans hca h1)

/-! ## Tokens and AST (formula_parser.py) -/

/-- Token kinds of the lexer (`TokenType` in the source). -/
inductive TokenType where
  | LPAREN | RPAREN | NOT | AND | OR | IMPLIES | EQUIV | XOR | IN | IDENTIFIER | EOF
deriving DecidableEq

/-- A lexical token: kind, matched text and source offset (`Token`). -/
structure Token where
  type : TokenType
  value : String
  position : Nat
deriving DecidableEq

/-- AST nodes of the formula language (`MembershipNode`, `NotNode`,
`BinaryNode` in the source).  The binary operator is kept as a string,
exactly as in the Python dataclass, so that the evaluator's
unknown-operator error branch stays representable. -/
inductive ASTNode where
  | membership (var : String) (set_name : String)
  | not (operand : ASTNode)
  | binary (op : String) (left : ASTNode) (right : ASTNode)
deriving DecidableEq

/-! ## Lexer (`Lexer` in formula_parser.py)

The Python lexer tries an ordered list of regex patterns at the current
position and commits to the first match.  Every pattern is an alternation
of plain literals, word literals with a trailing word boundary, or (for
`|`) a literal with a negative lookahead; they are modelled by `AltPat`. -/

/-- One regex alternative of a token pattern. -/
inductive AltPat where
  | lit (s : String)
  | word (s : String)
  | litNotFollowed (s : String) (c : Char)

/-- Python word character for the `\b` boundary: `[a-zA-Z0-9_]`. -/
def isWordChar (c : Char) : Bool := c.isAlpha || c.isDigit || c = '_'

/-- Python whitespace characters matched by the `\s+` pattern. -/
def isSpaceChar (c : Char) : Bool :=
  c = ' ' || c = '\t' || c = '\n' || c = '\r' || c = '\x0b' || c = '\x0c'

/-- Case-insensitive match of a literal prefix (re.IGNORECASE).
Returns the matched characters and the rest. -/
def matchCaseless : List Char → List Char → Option (List Char × List Char)
  | [], cs => some ([], cs)
  | _ :: _, [] => none
  | p :: ps, c :: cs =>
    if p.toLower = c.toLower then
      (matchCaseless ps cs).map (fun r => (c :: r.1, r.2))
    else none

/-- Try one regex alternative at the current position. -/
def runAlt : AltPat → List Char → Option (List Char × List Char)
  | .lit s, cs => matchCaseless s.data cs
  | .word s, cs =>
    match matchCaseless s.data cs with
    | none => none
    | some (m, rest) =>
      match rest with
      | [] => some (m, rest)
      | c :: _ => if isWordChar c then none else some (m, rest)
  | .litNotFollowed s c, cs =>
    match matchCaseless s.data cs with
    | none => none
    | some (m, rest) =>
      match rest with
      | [] => some (m, rest)
      | d :: _ => if d = c then none else some (m, rest)

/-- Try the alternatives of one token pattern in order. -/
def runAlts : List AltPat → List Char → Option (List Char × List Char)
  | [], _ => none
  | a :: rest, cs =>
    match runAlt a cs with
    | some r => some r
    | none => runAlts rest cs

/-- The ordered token pattern table of `Lexer.TOKEN_PATTERNS` (whitespace
and the identifier pattern are handled separately in `tokenizeAux`). -/
def tokenTable : List (List AltPat × TokenType) :=
  [ ([.lit "("], .LPAREN),
    ([.lit ")"], .RPAREN),
    ([.lit "¬", .lit "!", .word "NOT"], .NOT),
    ([.lit "∧", .lit "&", .word "AND"], .AND),
    ([.lit "∨", .litNotFollowed "|" '|', .word "OR"], .OR),
    ([.lit "→", .lit "->", .word "IMPLIES"], .IMPLIES),
    ([.lit "≡", .lit "<->", .lit "<=>", .lit "==", .word "EQUIV"], .EQUIV),
    ([.lit "⊕", .lit "^", .word "XOR"], .XOR),
    ([.lit "∈", .word "in"], .IN) ]

/-- Try the token patterns of the table in order. -/
def tryTable : List (List AltPat × TokenType) → List Char →
    Option (TokenType × List Char × List Char)
  | [], _ => none
  | (alts, tt) :: rest, cs =>
    match runAlts alts cs with
    | some (m, r) => some (tt, m, r)
    | none => tryTable rest cs

/-- Identifier start: `[a-zA-Z_]`. -/
def isIdStart (c : Char) : Bool := c.isAlpha || c = '_'

/-- `Lexer._tokenize`: scan left to right, first matching pattern wins;
an unmatched character raises a syntax error.  `fuel` only bounds the
recursion; every step consumes at least one character. -/
def tokenizeAux : Nat → Nat → List Char → Except String (List Token)
  | 0, _, _ => .error "внутренняя ошибка: нет топлива"
  | _ + 1, pos, [] => .ok [⟨.EOF, "", pos⟩]
  | fuel + 1, pos, c :: cs =>
    if isSpaceChar c then
      let run := (c :: cs).takeWhile isSpaceChar
      tokenizeAux fuel (pos + run.length) ((c :: cs).drop run.length)
    else
      match tryTable tokenTable (c :: cs) with
      | some (tt, m, rest) =>
        (tokenizeAux fuel (pos + m.length) rest).map
          (fun ts => ⟨tt, String.mk m, pos⟩ :: ts)
      | none =>
        if isIdStart c then
          let run := c :: cs.takeWhile isWordChar
          (tokenizeAux fuel (pos + run.length) (cs.dropWhile isWordChar)).map
            (fun ts => ⟨.IDENTIFIER, String.mk run, pos⟩ :: ts)
        else
          .error ("Неизвестный символ " ++ String.mk [c] ++ " на позиции " ++ toString pos)

/-- Tokenize a whole formula string. -/
def tokenize (s : String) : Except String (List Token) :=
  tokenizeAux (s.data.length + 1) 0 s.data

/-! ## Parser (`Parser` in formula_parser.py)

The source has one recursive-descent function per binary precedence level
(`_parse_equiv`, `_parse_implies`, `_parse_xor`, `_parse_or`,
`_parse_and`), each a loop producing a left-associative tree, plus
`_parse_not`, `_parse_atom` and `_parse_membership`.  The binary levels
are identical up to the operator involved, so they are embedded as one
function `parseL` indexed by the level, with the level-to-operator tables
below (level 0 binds loosest, exactly the order of the source):

  0 → EQUIV, 1 → IMPLIES, 2 → XOR, 3 → OR, 4 → AND, 5 → NOT, 6 → atom. -/

/-- Operator token of each binary level. -/
def opTok : Nat → TokenType
  | 0 => .EQUIV
  | 1 => .IMPLIES
  | 2 => .XOR
  | 3 => .OR
  | _ => .AND

/-- Operator name stored in the `BinaryNode` of each binary level. -/
def opName : Nat → String
  | 0 => "EQUIV"
  | 1 => "IMPLIES"
  | 2 => "XOR"
  | 3 => "OR"
  | _ => "AND"

/-- `Parser._expect`: consume a token of the given kind or fail. -/
def expectTok (tt : TokenType) : List Token → Except String (Token × List Token)
  | [] => .error "неожиданный конец токенов"
  | t :: rest =>
    if t.type = tt then .ok (t, rest)
    else .error ("Ожидался другой токен на позиции " ++ toString t.position)

/-- Kind of the current token (`Parser.current`). -/
def peekType : List Token → Option TokenType
  | [] => none
  | t :: _ => some t.type

mutual

/-- Recursive descent over the grammar; `lvl` selects the source function
as described above.  `fuel` only bounds the recursion depth. -/
def parseL : Nat → Nat → List Token → Except String (ASTNode × List Token)
  | 0, _, _ => .error "внутренняя ошибка: нет топлива"
  | fuel + 1, lvl, ts =>
    if lvl < 5 then
      match parseL fuel (lvl + 1) ts with
      | .error e => .error e
      | .ok (l, ts1) => parseLoop fuel lvl l ts1
    else if lvl = 5 then
      -- `_parse_not`: NOT is prefix and may stack.
      if peekType ts = some .NOT then
        match parseL fuel 5 (ts.tail) with
        | .error e => .error e
        | .ok (o, ts1) => .ok (.not o, ts1)
      else parseL fuel 6 ts
    else
      -- `_parse_atom`: parenthesized expression or membership clause.
      if peekType ts = some .LPAREN then
        match parseL fuel 0 (ts.tail) with
        | .error e => .error e
        | .ok (e, ts1) =>
          match expectTok .RPAREN ts1 with
          | .error e2 => .error e2
          | .ok (_, ts2) => .ok (e, ts2)
      else
        -- `_parse_membership`: IDENTIFIER IN IDENTIFIER.
        match expectTok .IDENTIFIER ts with
        | .error e => .error e
        | .ok (vt, ts1) =>
          match expectTok .IN ts1 with
          | .error e => .error e
          | .ok (_, ts2) =>
            match expectTok .IDENTIFIER ts2 with
            | .error e => .error e
            | .ok (st, ts3) => .ok (.membership vt.value st.value, ts3)

/-- The left-associative repetition loop of one binary level: while the
current token is the level's operator, consume it, parse the next level
and extend the tree to the left. -/
def parseLoop : Nat → Nat → ASTNode → List Token → Except String (ASTNode × List Token)
  | 0, _, _, _ => .error "внутренняя ошибка: нет топлива"
  | fuel + 1, lvl, left, ts =>
    if peekType ts = some (opTok lvl) then
      match parseL fuel (lvl + 1) ts.tail with
      | .error e => .error e
      | .ok (r, ts1) => parseLoop fuel lvl (.binary (opName lvl) left r) ts1
    else .ok (left, ts)

end

/-- `Parser.parse`: parse a full expression and require the EOF token. -/
def parseToks (ts : List Token) : Except String ASTNode :=
  match parseL (8 * (ts.length + 1)) 0 ts with
  | .error e => .error e
  | .ok (r, rest) =>
    match peekType rest with
    | some .EOF => .ok r
    | _ => .error "Неожиданный токен после формулы"

/-- `parse_formula`: tokenize then parse. -/
def parse_formula (s : String) : Except String ASTNode :=
  match tokenize s with
  | .error e => .error e
  | .ok ts => parseToks ts

/-- `get_sets_from_ast`: the set names occurring in a formula. -/
def getSetsFromAst : ASTNode → List String
  | .membership _ s => [s]
  | .not n => getSetsFromAst n
  | .binary _ l r => (getSetsFromAst l).union (getSetsFromAst r)

/-! ## Formula evaluator (`FormulaEvaluator.evaluate` in solver.py) -/

/-- Python `dict.get(name, False)` over the predicate-value dictionary,
modelled as first-match lookup in an association list. -/
def lookupVal : List (String × Bool) → String → Bool
  | [], _ => false
  | (k, v) :: rest, s => if k = s then v else lookupVal rest s

/-- `FormulaEvaluator.evaluate`: truth value of a formula under given
predicate values; `none` models the `ValueError` raised on an unknown
binary operator (the source's final `raise`). -/
def evaluate : ASTNode → List (String × Bool) → Option Bool
  | .membership _ sname, vals => some (lookupVal vals sname)
  | .not n, vals => (evaluate n vals).map (fun b => !b)
  | .binary op l r, vals =>
    match evaluate l vals, evaluate r vals with
    | some a, some b =>
      if op = "AND" then some (a && b)
      else if op = "OR" then some (a || b)
      else if op = "IMPLIES" then some (!a || b)
      else if op = "EQUIV" then some (a == b)
      else if op = "XOR" then some (a != b)
      else none
    | _, _ => none

/-! ## Solver data model (solver.py) -/

/-- `Constraint`: classification of one region. -/
inductive Constraint where
  | MUST_INCLUDE | MUST_EXCLUDE | FREE | IMPOSSIBLE
deriving DecidableEq

/-- `Interval`: an interval of the real line with closedness flags. -/
structure Interval where
  left : EF
  right : EF
  left_closed : Bool
  right_closed : Bool
deriving DecidableEq

/-- `Interval.length` (only used by the solver on finite intervals). -/
def Interval.lengthQ (i : Interval) : ℚ := i.right.toQ - i.left.toQ

/-- `ConstrainedInterval`: a region together with its classification. -/
structure ConstrainedInterval where
  interval : Interval
  constraint : Constraint
deriving DecidableEq

/-- `SolverResult`. -/
structure SolverResult where
  success : Bool
  intervals : List Interval
  total_length : ℚ
  message : String
deriving DecidableEq

/-- `SolverResult.is_infinite`. -/
def SolverResult.isInfinite (r : SolverResult) : Bool :=
  r.intervals.any (fun i => i.left.isInf || i.right.isInf)

/-- The known sets: Python `Dict[str, Tuple[float, float]]` as an
association list (keys are unique in a Python dict; lookup takes the
first match). -/
abbrev KnownSets := List (String × ℚ × ℚ)

/-- The immutable configuration of a `LogicSolver` instance. -/
structure SolverConfig where
  ast : ASTNode
  known_sets : KnownSets
  target_set : String
  maximize : Bool
  formula_true : Bool

/-- First-match lookup in the known-sets dictionary. -/
def lookupKS : KnownSets → String → Option (ℚ × ℚ)
  | [], _ => none
  | e :: rest, s => if e.1 = s then some e.2 else lookupKS rest s

/-! ## Solver algorithm (`LogicSolver` in solver.py) -/

/-- `LogicSolver._validate`: `some msg` models the `ValueError` raised on
a missing target or undefined set (the Python set iterated by the second
check is unordered, so only existence of an offending name is modelled
deterministically via `find?`). -/
def validateErr (ast : ASTNode) (ks : KnownSets) (target : String) : Option String :=
  let all_sets := getSetsFromAst ast
  if all_sets.contains target = false then
    some "Искомое множество не найдено в формуле"
  else
    match all_sets.find? (fun s => !(s == target) && (lookupKS ks s).isNone) with
    | some s => some ("Множество " ++ s ++ " не определено")
    | none => none

/-- The `LogicSolver.__init__` constructor: parse the formula, then
validate, before any region analysis happens. -/
def mkSolver (formula : String) (ks : KnownSets) (target : String)
    (maximize formula_true : Bool) : Except String SolverConfig :=
  match parse_formula formula with
  | .error e => .error e
  | .ok ast =>
    match validateErr ast ks target with
    | some e => .error e
    | none => .ok ⟨ast, ks, target, maximize, formula_true⟩

/-- `LogicSolver._get_critical_points`: the distinct boundary values of
all known intervals, sorted ascending (Python builds a set and sorts). -/
def criticalPoints (ks : KnownSets) : List ℚ :=
  List.insertionSort (fun a b : ℚ => a ≤ b)
    ((ks.map (fun e => [e.2.1, e.2.2])).flatten).dedup

/-- The loop of `_build_intervals` after the leading infinite interval:
finite intervals between consecutive points, then the right-infinite
interval from the last point. -/
def buildRest (p : ℚ) : List ℚ → List Interval
  | [] => [⟨.fin p, .pinf, true, false⟩]
  | q :: rest => ⟨.fin p, .fin q, true, false⟩ :: buildRest q rest

/-- `LogicSolver._build_intervals`. -/
def buildIntervals : List ℚ → List Interval
  | [] => [⟨.ninf, .pinf, true, false⟩]
  | p :: rest => ⟨.ninf, .fin p, false, false⟩ :: buildRest p rest

/-- `LogicSolver._point_in_set`: closed-interval membership of a point in
a known set; an absent name yields `False`. -/
def pointInSet (ks : KnownSets) (x : ℚ) (s : String) : Bool :=
  match lookupKS ks s with
  | none => false
  | some (l, r) => decide (l ≤ x) && decide (x ≤ r)

/-- The representative test point chosen by
`_get_constraint_for_interval`: 0 when both ends are infinite, right−1
when the left end is infinite, left+1 when the right end is infinite, the
midpoint otherwise. -/
def representativePoint (i : Interval) : ℚ :=
  match i.left, i.right with
  | .ninf, .fin r => r - 1
  | .pinf, .fin r => r - 1
  | .ninf, .ninf => 0
  | .ninf, .pinf => 0
  | .pinf, .ninf => 0
  | .pinf, .pinf => 0
  | .fin l, .ninf => l + 1
  | .fin l, .pinf => l + 1
  | .fin l, .fin r => (l + r) / 2

/-- The predicate dictionary `{**base_values, target: b}` built by
`_get_constraint_for_interval`: the values of all known sets at the test
point, with the target set overridden. -/
def mkVals (ks : KnownSets) (target : String) (x : ℚ) (b : Bool) : List (String × Bool) :=
  (target, b) :: ks.map (fun e => (e.1, pointInSet ks x e.1))

/-- `LogicSolver._get_constraint_for_interval`; `none` propagates an
evaluator `ValueError`. -/
def getConstraint (ast : ASTNode) (ks : KnownSets) (target : String)
    (ftrue : Bool) (i : Interval) : Option Constraint :=
  let x := representativePoint i
  match evaluate ast (mkVals ks target x false), evaluate ast (mkVals ks target x true) with
  | some r0, some r1 =>
    let s0 := r0 == ftrue
    let s1 := r1 == ftrue
    some (if s0 && s1 then .FREE
          else if s0 && !s1 then .MUST_EXCLUDE
          else if !s0 && s1 then .MUST_INCLUDE
          else .IMPOSSIBLE)
  | _, _ => none

/-- `LogicSolver._analyze_intervals`. -/
def analyzeIntervals (cfg : SolverConfig) : Option (List ConstrainedInterval) :=
  let pts := criticalPoints cfg.known_sets
  let ivs := buildIntervals pts
  ivs.mapM (fun i =>
    (getConstraint cfg.ast cfg.known_sets cfg.target_set cfg.formula_true i).map
      (fun c => ⟨i, c⟩))

/-- The inclusion decision of `_optimize`: include a region iff it is
MUST_INCLUDE, or it is FREE and the objective is maximization. -/
def shouldInclude (maximize : Bool) : Constraint → Bool
  | .MUST_INCLUDE => true
  | .FREE => maximize
  | _ => false

/-- The merge of two overlapping or touching intervals inside
`_merge_intervals`: keep the left end of the first, take the wider right
end, and take the closedness flag of whichever side contributed it. -/
def merge2 (last cur : Interval) : Interval :=
  ⟨last.left, EF.maxE last.right cur.right, last.left_closed,
    if EF.ltB last.right cur.right then cur.right_closed else last.right_closed⟩

/-- The fold of `_merge_intervals` over the sorted list. -/
def mergeAux : Interval → List Interval → List Interval
  | last, [] => [last]
  | last, cur :: rest =>
    if EF.leB cur.left last.right then mergeAux (merge2 last cur) rest
    else last :: mergeAux cur rest

/-- `LogicSolver._merge_intervals`: sort by left boundary (Python's
stable sort), then coalesce touching or overlapping intervals. -/
def mergeIntervals (l : List Interval) : List Interval :=
  match List.insertionSort (fun a b : Interval => EF.leB a.left b.left = true) l with
  | [] => []
  | h :: t => mergeAux h t

/-- The total-length sum of `_optimize`: finite intervals only. -/
def sumFiniteLengths (l : List Interval) : ℚ :=
  ((l.filter (fun i => !i.left.isInf && !i.right.isInf)).map Interval.lengthQ).sum

/-! ## Result formatting and the solve entry point

`_format_result` mutates two instance attributes (`parts_max`,
`parts_min`); the mutable part of the `LogicSolver` instance is threaded
explicitly as a pair of integers, so that the idempotence of `solve` is a
statement about state and not a tautology. -/

/-- Python `int()` truncation (toward zero) of a rational. -/
def truncQ (q : ℚ) : Int := q.num.tdiv q.den

/-- Rendering of a finite numeric value inside messages (the Python
source prints the float's repr; digits are not load-bearing here). -/
def renderQ (q : ℚ) : String :=
  if q.den = 1 then toString q.num else toString q.num ++ "/" ++ toString q.den

/-- The part-building loop of `_format_result`: renders each interval and
updates the running `parts_max`/`parts_min` of the finite ones (the
source guard `parts_max != ?` is always true, since `parts_max` starts
at −1). -/
def formatLoop : List Interval → Int → Int → (List String × Int × Int)
  | [], pmax, pmin => ([], pmax, pmin)
  | i :: rest, pmax, pmin =>
    if i.left.isInf && i.right.isInf then
      let (ps, a, b) := formatLoop rest pmax pmin
      ("(-∞, +∞)" :: ps, a, b)
    else if i.left.isInf then
      let (ps, a, b) := formatLoop rest pmax pmin
      (("(-∞, " ++ renderQ i.right.toQ ++ "]") :: ps, a, b)
    else if i.right.isInf then
      let (ps, a, b) := formatLoop rest pmax pmin
      (("[" ++ renderQ i.left.toQ ++ ", +∞)") :: ps, a, b)
    else
      let d : Int := truncQ i.right.toQ - truncQ i.left.toQ
      let (ps, a, b) := formatLoop rest (max d pmax) (min d pmin)
      (("[" ++ renderQ i.left.toQ ++ ", " ++ renderQ i.right.toQ ++ "]") :: ps, a, b)

/-- The message of `_format_result` up to (not including) the length or
infiniteness suffix, together with the final `parts_max`/`parts_min`. -/
def formatBody (target : String) (intervals : List Interval) : String × Int × Int :=
  let r := formatLoop intervals (-1) 1000000
  (target ++ " = " ++ String.intercalate " ∪ " r.1 ++
     "  max: " ++ toString r.2.1 ++ " min: " ++ toString r.2.2, r.2.1, r.2.2)

/-- `LogicSolver._format_result`, threading the mutable
`parts_max`/`parts_min` attributes of the instance. -/
def formatResultS (target : String) (st : Int × Int) (intervals : List Interval)
    (len : ℚ) : String × (Int × Int) :=
  if intervals.isEmpty then (target ++ " = ∅", st)
  else
    let b := formatBody target intervals
    if !(intervals.any fun i => i.left.isInf || i.right.isInf) then
      (b.1 ++ ", суммарная длина = " ++ renderQ len, (b.2.1, b.2.2))
    else
      (b.1 ++ " (бесконечное решение)", (b.2.1, b.2.2))

/-- Rendering of an endpoint in the `Interval.__repr__` style (Python
prints the floats `-inf` and `inf` literally). -/
def renderEF : EF → String
  | .ninf => "-inf"
  | .pinf => "inf"
  | .fin q => renderQ q

/-- The failure message of `_optimize` for an IMPOSSIBLE region. -/
def impossibleMsg (i : Interval) : String :=
  "Нет решения: невозможное ограничение на интервале " ++
    (if i.left_closed then "[" else "(") ++ renderEF i.left ++ ", " ++
    renderEF i.right ++ (if i.right_closed then "]" else ")")

/-- `LogicSolver._optimize`, threading the mutable formatting state. -/
def optimizeS (maximize : Bool) (target : String) (st : Int × Int)
    (constrained : List ConstrainedInterval) : SolverResult × (Int × Int) :=
  match constrained.find? (fun ci => ci.constraint == Constraint.IMPOSSIBLE) with
  | some ci => (⟨false, [], 0, impossibleMsg ci.interval⟩, st)
  | none =>
    let selected :=
      (constrained.filter (fun ci => shouldInclude maximize ci.constraint)).map
        (fun ci => ci.interval)
    let merged := mergeIntervals selected
    let total := sumFiniteLengths merged
    if merged.isEmpty then
      (⟨true, [], 0, "Решение: A = ∅ (пустое множество)"⟩, st)
    else
      let m := formatResultS target st merged total
      (⟨true, merged, total, m.1⟩, m.2)

/-- `LogicSolver.solve`, threading the mutable formatting state; `none`
models a `ValueError` escaping from the evaluator. -/
def solveS (cfg : SolverConfig) (st : Int × Int) : Option SolverResult × (Int × Int) :=
  match analyzeIntervals cfg with
  | none => (none, st)
  | some cs =>
    let r := optimizeS cfg.maximize cfg.target_set st cs
    (some r.1, r.2)

/-- `solve()` on a freshly constructed instance (the two attributes do
not exist before the first `_format_result` call; their initial value is
irrelevant, see the idempotence theorem). -/
def solve (cfg : SolverConfig) : Option SolverResult :=
  (solveS cfg (-1, 1000000)).1

/-- `LogicSolver.get_analysis`. -/
def getAnalysis (cfg : SolverConfig) : Option (List ConstrainedInterval) :=
  analyzeIntervals cfg

/-! ## Semantic layer: intervals as sets of rational points -/

/-- Membership of a rational point in an interval, honouring the
closedness flags. -/
def containsQ (i : Interval) (x : ℚ) : Bool :=
  (if i.left_closed then EF.leB i.left (.fin x) else EF.ltB i.left (.fin x)) &&
  (if i.right_closed then EF.leB (.fin x) i.right else EF.ltB (.fin x) i.right)

/-- Membership of a point in a union of intervals. -/
def memIntervals (x : ℚ) (l : List Interval) : Bool := l.any (fun i => containsQ i x)

/-- Two intervals denote the same set of rational points. -/
def sameSet (i j : Interval) : Prop := ∀ x : ℚ, containsQ i x = containsQ j x

/-! ## Spec-side definitions (written from the specification text, for
the refinement claims) -/

/-- Spec description of the region list built from the sorted critical
points: `(−∞, p₀), [p₀,p₁), …, [p_{n−1}, +∞)`, or `(−∞,+∞)` when there
are no critical points. -/
def specRegions (pts : List ℚ) : List Interval :=
  match pts with
  | [] => [⟨.ninf, .pinf, false, false⟩]
  | p :: rest =>
    ⟨.ninf, .fin p, false, false⟩ ::
      ((pts.zip rest).map (fun pq => ⟨.fin pq.1, .fin pq.2, true, false⟩) ++
        [⟨.fin ((p :: rest).getLast (List.cons_ne_nil p rest)), .pinf, true, false⟩])

/-- Spec description of the representative point of a region: midpoint of
a finite region, right boundary minus 1 for the left-infinite region,
left boundary plus 1 for the right-infinite region, 0 for all of ℝ. -/
def specRepPoint (i : Interval) : ℚ :=
  match i.left, i.right with
  | .fin l, .fin r => (l + r) / 2
  | .ninf, .fin r => r - 1
  | .fin l, .pinf => l + 1
  | _, _ => 0

/-- Spec description of the tag assignment from the two satisfaction
checks (`s0` = excluded evaluation hits the required truth value, `s1` =
included evaluation does): both → FREE, only included → MUST_INCLUDE,
only excluded → MUST_EXCLUDE, neither → IMPOSSIBLE. -/
def specRegionTag (s0 s1 : Bool) : Constraint :=
  if s0 && s1 then .FREE
  else if s1 && !s0 then .MUST_INCLUDE
  else if s0 && !s1 then .MUST_EXCLUDE
  else .IMPOSSIBLE

/-! ## Worked example of the source's `__main__` block (used by several
claims): formula `((x ∈ P) ≡ (x ∈ Q)) → ¬(x ∈ A)`, P = [5,30],
Q = [14,23], target A. -/

def exFormula : String := "((x ∈ P) ≡ (x ∈ Q)) → ¬(x ∈ A)"

def exKnown : KnownSets := [("P", (5, 30)), ("Q", (14, 23))]

/-- Solving the worked example with maximize=true, formula_true=true. -/
def exSolve : Option SolverResult :=
  match parse_formula exFormula with
  | .error _ => none
  | .ok ast => solve ⟨ast, exKnown, "A", true, true⟩

/-- The merged interval set claimed by the specification for the worked
example: (−∞,5) ∪ [14,23) ∪ [30,+∞). -/
def claimedC1 : List Interval :=
  [⟨.ninf, .fin 5, false, false⟩, ⟨.fin 14, .fin 23, true, false⟩,
   ⟨.fin 30, .pinf, true, false⟩]

/-- Claim C1, counterexample: on the worked example the solver does
return a successful result, but its merged interval set contains the
point 6, which the claimed set (−∞,5) ∪ [14,23) ∪ [30,+∞) does not
contain — the claimed and the actual interval sets differ. -/
theorem C1_counterexample :
    exSolve.map (fun r => (r.success, memIntervals 6 r.intervals)) = some (true, true) ∧
    memIntervals 6 claimedC1 = false := by
  constructor <;> rfl

/-- Claim C1 as amended: on the worked example (P=[5,30], Q=[14,23],
target A, maximize, formula required true) `solve` returns a successful
result whose merged interval set is [5,14) ∪ [23,30), of total length
16. -/
theorem C1_amended :
    exSolve.map (fun r => (r.success, r.intervals, r.total_length)) =
      some (true, [⟨.fin 5, .fin 14, true, false⟩, ⟨.fin 23, .fin 30, true, false⟩], 16) := by
  rfl

/-- The token triple of a membership clause, with arbitrary identifier
names (the parser branches on token kinds only, never on values). -/
def membToks (v s : String) : List Token :=
  [⟨.IDENTIFIER, v, 0⟩, ⟨.IN, "∈", 0⟩, ⟨.IDENTIFIER, s, 0⟩]

/-- The operator token of binary level `L` (0 = EQUIV … 4 = AND). -/
def opTokAt (L : Nat) : Token := ⟨opTok L, "", 0⟩

/-- The end-of-input token. -/
def eofTok : Token := ⟨.EOF, "", 0⟩

/-- Claim C4: the parser applies the precedence order EQUIV < IMPLIES <
XOR < OR < AND < NOT (levels 0–4 of `opTok`/`opName`, lowest to highest
binding), each binary level left-associative, stated generically over
arbitrary identifier names: for every pair of distinct binary levels
i < j, an i-j triple groups the j-operator under the i-operator and a
j-i triple groups the j-operator to the left; every binary level is
left-associative on three- and four-atom chains; NOT binds tighter than
every binary level on either side and stacks; and in particular the
spec's example parses to
OR(Membership(A,P), AND(Membership(A,Q), NOT(Membership(A,R)))). -/
theorem C4_parse_precedence :
    (∀ i j, i < j → j ≤ 4 → ∀ v1 s1 v2 s2 v3 s3 : String,
      parseToks (membToks v1 s1 ++ opTokAt i :: membToks v2 s2 ++
          opTokAt j :: membToks v3 s3 ++ [eofTok]) =
        .ok (.binary (opName i) (.membership v1 s1)
          (.binary (opName j) (.membership v2 s2) (.membership v3 s3))) ∧
      parseToks (membToks v1 s1 ++ opTokAt j :: membToks v2 s2 ++
          opTokAt i :: membToks v3 s3 ++ [eofTok]) =
        .ok (.binary (opName i)
          (.binary (opName j) (.membership v1 s1) (.membership v2 s2))
          (.membership v3 s3))) ∧
    (∀ L, L ≤ 4 → ∀ v1 s1 v2 s2 v3 s3 v4 s4 : String,
      parseToks (membToks v1 s1 ++ opTokAt L :: membToks v2 s2 ++
          opTokAt L :: membToks v3 s3 ++ [eofTok]) =
        .ok (.binary (opName L)
          (.binary (opName L) (.membership v1 s1) (.membership v2 s2))
          (.membership v3 s3)) ∧
      parseToks (membToks v1 s1 ++ opTokAt L :: membToks v2 s2 ++
          opTokAt L :: membToks v3 s3 ++ opTokAt L :: membToks v4 s4 ++ [eofTok]) =
        .ok (.binary (opName L)
          (.binary (opName L)
            (.binary (opName L) (.membership v1 s1) (.membership v2 s2))
            (.membership v3 s3))
          (.membership v4 s4))) ∧
    (∀ L, L ≤ 4 → ∀ v1 s1 v2 s2 : String,
      parseToks (⟨.NOT, "¬", 0⟩ :: membToks v1 s1 ++ opTokAt L ::
          membToks v2 s2 ++ [eofTok]) =
        .ok (.binary (opName L) (.not (.membership v1 s1)) (.membership v2 s2)) ∧
      parseToks (membToks v1 s1 ++ opTokAt L :: ⟨.NOT, "¬", 0⟩ ::
          membToks v2 s2 ++ [eofTok]) =
        .ok (.binary (opName L) (.membership v1 s1) (.not (.membership v2 s2)))) ∧
    (∀ v1 s1 : String,
      parseToks (⟨.NOT, "¬", 0⟩ :: ⟨.NOT, "¬", 0⟩ :: membToks v1 s1 ++ [eofTok]) =
        .ok (.not (.not (.membership v1 s1)))) ∧
    (parse_formula "A ∈ P ∨ A ∈ Q ∧ ¬A ∈ R" =
      .ok (.binary "OR" (.membership "A" "P")
        (.binary "AND" (.membership "A" "Q") (.not (.membership "A" "R")))) ∧
    parse_formula "x ∈ P → x ∈ Q → x ∈ R" =
      .ok (.binary "IMPLIES"
        (.binary "IMPLIES" (.membership "x" "P") (.membership "x" "Q"))
        (.membership "x" "R")) ∧
    parse_formula "x ∈ P ≡ x ∈ Q → x ∈ R" =
      .ok (.binary "EQUIV" (.membership "x" "P")
        (.binary "IMPLIES" (.membership "x" "Q") (.membership "x" "R"))) ∧
    parse_formula "x ∈ P ⊕ x ∈ Q ∨ x ∈ R" =
      .ok (.binary "XOR" (.membership "x" "P")
        (.binary "OR" (.membership "x" "Q") (.membership "x" "R")))) := by
  refine ⟨?_, ?_, ?_, ?_, rfl, rfl, rfl, rfl⟩
  · intro i j hij hj4 v1 s1 v2 s2 v3 s3
    interval_cases j <;> interval_cases i <;> exact ⟨rfl, rfl⟩
  · intro L hL v1 s1 v2 s2 v3 s3 v4 s4
    interval_cases L <;> exact ⟨rfl, rfl⟩
  · intro L hL v1 s1 v2 s2
    interval_cases L <;> exact ⟨rfl, rfl⟩
  · intro v1 s1
    rfl

/-- Witness for C4: the general conjuncts applied at concrete levels and
names — IMPLIES (level 1) against XOR (level 2), exercising the pair the
precedence order distinguishes, and left-associativity of OR (level 3). -/
theorem C4_parse_precedence_witness :
    parseToks (membToks "x" "P" ++ opTokAt 1 :: membToks "x" "Q" ++
        opTokAt 2 :: membToks "x" "R" ++ [eofTok]) =
      .ok (.binary (opName 1) (.membership "x" "P")
        (.binary (opName 2) (.membership "x" "Q") (.membership "x" "R"))) ∧
    parseToks (membToks "x" "P" ++ opTokAt 3 :: membToks "x" "Q" ++
        opTokAt 3 :: membToks "x" "R" ++ [eofTok]) =
      .ok (.binary (opName 3)
        (.binary (opName 3) (.membership "x" "P") (.membership "x" "Q"))
        (.membership "x" "R")) :=
  ⟨(C4_parse_precedence.1 1 2 (by decide) (by decide) "x" "P" "x" "Q" "x" "R").1,
   (C4_parse_precedence.2.1 3 (by decide) "x" "P" "x" "Q" "x" "R" "x" "S").1⟩

/-! ## Idempotence of solve (claim C9) -/

theorem formatResultS_fst (target : String) (st st' : Int × Int)
    (l : List Interval) (len : ℚ) :
    (formatResultS target st l len).1 = (formatResultS target st' l len).1 := by
  unfold formatResultS
  split
  · rfl
  · rfl

theorem optimizeS_fst (maximize : Bool) (target : String) (st st' : Int × Int)
    (cs : List ConstrainedInterval) :
    (optimizeS maximize target st cs).1 = (optimizeS maximize target st' cs).1 := by
  unfold optimizeS
  cases cs.find? (fun ci => ci.constraint == Constraint.IMPOSSIBLE) with
  | some ci => rfl
  | none =>
    simp only
    split
    · rfl
    · rw [formatResultS_fst target st st']

/-- Claim C9: calling `solve()` twice on the same solver instance yields
identical results — the result (success flag, interval list, total
length and message) of the second call, run in the instance state left
behind by the first, equals the result of the first call. -/
theorem C9_solve_idempotent (cfg : SolverConfig) (st : Int × Int) :
    (solveS cfg (solveS cfg st).2).1 = (solveS cfg st).1 := by
  unfold solveS
  cases analyzeIntervals cfg with
  | none => rfl
  | some cs =>
    simp only [Option.some.injEq]
    exact optimizeS_fst _ _ _ _ _

/-! ## Validation (claim C5) -/

theorem validateErr_isSome_iff (ast : ASTNode) (ks : KnownSets) (target : String) :
    (validateErr ast ks target).isSome = true ↔
      (target ∉ getSetsFromAst ast ∨
        ∃ s ∈ getSetsFromAst ast, s ≠ target ∧ lookupKS ks s = none) := by
  unfold validateErr
  by_cases hc : target ∈ getSetsFromAst ast
  · have hcc : (getSetsFromAst ast).contains target = true := by simpa using hc
    rw [if_neg (by rw [hcc]; simp)]
    cases hf : (getSetsFromAst ast).find? (fun s => !(s == target) && (lookupKS ks s).isNone) with
    | some s =>
      have hmem := List.mem_of_find?_eq_some hf
      have hpred := List.find?_some hf
      simp only [Option.isSome_some, true_iff]
      refine Or.inr ⟨s, hmem, ?_, ?_⟩
      · intro he
        subst he
        simp at hpred
      · simp only [Bool.and_eq_true] at hpred
        exact Option.isNone_iff_eq_none.mp hpred.2
    | none =>
      have hnone := List.find?_eq_none.mp hf
      refine iff_of_false (by simp) ?_
      rintro (h | ⟨s, hs, hne, hks⟩)
      · exact h hc
      · have hp := hnone s hs
        rw [hks] at hp
        simp only [Option.isNone_none, Bool.and_true] at hp
        exact hp (by simp [hne])
  · have hcc : (getSetsFromAst ast).contains target = false := by
      simp only [Bool.eq_false_iff]
      simpa using hc
    rw [if_pos hcc]
    simp only [Option.isSome_some, true_iff]
    exact Or.inl hc

/-- Claim C5: constructing a `LogicSolver` fails with a configuration
error — before any region analysis, since validation happens in the
constructor — if and only if the target set name does not occur in the
parsed formula, or some other set name of the formula is absent from the
known-sets mapping. -/
theorem C5_validation (formula : String) (ast : ASTNode) (ks : KnownSets)
    (target : String) (mx ft : Bool) (hp : parse_formula formula = .ok ast) :
    ((mkSolver formula ks target mx ft).isOk = false ↔
      (target ∉ getSetsFromAst ast ∨
        ∃ s ∈ getSetsFromAst ast, s ≠ target ∧ lookupKS ks s = none)) := by
  unfold mkSolver
  rw [hp, ← validateErr_isSome_iff ast ks target]
  cases h : validateErr ast ks target <;> simp [h, Except.isOk, Except.toBool]

/-- Witness for C5 at a concrete input: target `B` does not occur in the
formula `x ∈ A`, so construction fails. -/
theorem C5_validation_witness :
    (mkSolver "x ∈ A" [] "B" true true).isOk = false :=
  (C5_validation "x ∈ A" (.membership "x" "A") [] "B" true true rfl).mpr
    (Or.inl (by decide))

/-! ## Region classification (claim C2) -/

/-- Shape of the regions produced by the tail loop of
`_build_intervals`: finite left endpoint, finite or +∞ right endpoint. -/
theorem buildRest_shape (p : ℚ) (l : List ℚ) (i : Interval) (h : i ∈ buildRest p l) :
    (∃ a, i.left = .fin a) ∧ (i.right = .pinf ∨ ∃ b, i.right = .fin b) := by
  induction l generalizing p with
  | nil =>
    simp only [buildRest, List.mem_singleton] at h
    subst h
    exact ⟨⟨p, rfl⟩, Or.inl rfl⟩
  | cons q rest ih =>
    simp only [buildRest, List.mem_cons] at h
    rcases h with h | h
    · subst h
      exact ⟨⟨p, rfl⟩, Or.inr ⟨q, rfl⟩⟩
    · exact ih q h

/-- The regions of `_build_intervals` never have a +∞ left endpoint nor a
−∞ right endpoint. -/
theorem buildIntervals_shape (pts : List ℚ) (i : Interval)
    (h : i ∈ buildIntervals pts) : i.left ≠ .pinf ∧ i.right ≠ .ninf := by
  cases pts with
  | nil =>
    simp only [buildIntervals, List.mem_singleton] at h
    subst h
    exact ⟨by simp, by simp⟩
  | cons p rest =>
    simp only [buildIntervals, List.mem_cons] at h
    rcases h with h | h
    · subst h
      exact ⟨by simp, by simp⟩
    · obtain ⟨⟨a, ha⟩, hr⟩ := buildRest_shape p rest i h
      refine ⟨by simp [ha], ?_⟩
      rcases hr with hr | ⟨b, hb⟩
      · simp [hr]
      · simp [hb]

/-- Claim C2: for every region of the partition, the solver picks the
spec's representative point (midpoint of a finite region, right−1 for the
left-infinite region, left+1 for the right-infinite region, 0 for all of
ℝ), evaluates the formula at it once with the target excluded (`r0`) and
once included (`r1`) with the known-set memberships fixed, and tags the
region by the spec's table applied to the two checks against the required
truth value `ftrue`. -/
theorem C2_region_classification (ast : ASTNode) (ks : KnownSets) (target : String)
    (ftrue : Bool) (i : Interval) (r0 r1 : Bool)
    (hi : i ∈ buildIntervals (criticalPoints ks))
    (h0 : evaluate ast (mkVals ks target (representativePoint i) false) = some r0)
    (h1 : evaluate ast (mkVals ks target (representativePoint i) true) = some r1) :
    representativePoint i = specRepPoint i ∧
    getConstraint ast ks target ftrue i =
      some (specRegionTag (r0 == ftrue) (r1 == ftrue)) := by
  obtain ⟨hl, hr⟩ := buildIntervals_shape _ i hi
  constructor
  · unfold representativePoint specRepPoint
    cases hel : i.left <;> cases her : i.right <;> simp_all
  · unfold getConstraint
    simp only [h0, h1]
    cases r0 <;> cases r1 <;> cases ftrue <;> rfl

/-- Witness for C2 at a concrete region: formula `x ∈ P → x ∈ A`,
P = [0,10], region [0,10), excluded evaluation false, included true, so
the tag is MUST_INCLUDE. -/
theorem C2_region_classification_witness :
    representativePoint ⟨.fin 0, .fin 10, true, false⟩ =
      specRepPoint ⟨.fin 0, .fin 10, true, false⟩ ∧
    getConstraint (.binary "IMPLIES" (.membership "x" "P") (.membership "x" "A"))
        [("P", (0, 10))] "A" true ⟨.fin 0, .fin 10, true, false⟩ =
      some (specRegionTag (false == true) (true == true)) :=
  C2_region_classification
    (.binary "IMPLIES" (.membership "x" "P") (.membership "x" "A"))
    [("P", (0, 10))] "A" true ⟨.fin 0, .fin 10, true, false⟩ false true
    (by decide) (by decide) (by decide)

/-! ## Region construction (claim C3) -/

theorem criticalPoints_sorted_lt (ks : KnownSets) :
    (criticalPoints ks).Sorted (fun a b : ℚ => a < b) := by
  have hs : (criticalPoints ks).Sorted (fun a b : ℚ => a ≤ b) :=
    List.sorted_insertionSort _ _
  have hnd : (criticalPoints ks).Nodup :=
    (List.perm_insertionSort _ _).nodup_iff.mpr (List.nodup_dedup _)
  exact hs.lt_of_le hnd

theorem mem_criticalPoints (ks : KnownSets) (q : ℚ) :
    q ∈ criticalPoints ks ↔ ∃ e ∈ ks, q = e.2.1 ∨ q = e.2.2 := by
  unfold criticalPoints
  rw [List.mem_insertionSort, List.mem_dedup, List.mem_flatten]
  constructor
  · rintro ⟨l, hl, hq⟩
    rw [List.mem_map] at hl
    obtain ⟨e, he, rfl⟩ := hl
    simp only [List.mem_cons, List.not_mem_nil, or_false] at hq
    exact ⟨e, he, hq⟩
  · rintro ⟨e, he, hq⟩
    exact ⟨[e.2.1, e.2.2], List.mem_map.mpr ⟨e, he, rfl⟩, by
      simp only [List.mem_cons, List.not_mem_nil, or_false]; exact hq⟩

theorem buildRest_length (p : ℚ) (l : List ℚ) :
    (buildRest p l).length = l.length + 1 := by
  induction l generalizing p with
  | nil => rfl
  | cons q rest ih => simp [buildRest, ih q]

/-- The tail loop of `_build_intervals` written as the spec describes it:
the finite regions of consecutive point pairs, then the right-infinite
region of the last point. -/
theorem buildRest_eq_zip (p : ℚ) (l : List ℚ) :
    buildRest p l =
      ((p :: l).zip l).map (fun pq => (⟨.fin pq.1, .fin pq.2, true, false⟩ : Interval)) ++
        [⟨.fin ((p :: l).getLast (List.cons_ne_nil p l)), .pinf, true, false⟩] := by
  induction l generalizing p with
  | nil => rfl
  | cons q rest ih =>
    simp only [List.zip_cons_cons, List.map_cons, List.cons_append, buildRest]
    rw [ih q, List.getLast_cons (List.cons_ne_nil q rest)]

theorem buildIntervals_eq_specRegions (pts : List ℚ) (h : pts ≠ []) :
    buildIntervals pts = specRegions pts := by
  cases pts with
  | nil => exact absurd rfl h
  | cons p rest =>
    simp only [buildIntervals, specRegions]
    rw [buildRest_eq_zip]

/-- Claim C3: the solver collects exactly the distinct boundary values of
the known intervals, sorted strictly ascending, and builds from n sorted
points exactly the n+1 regions (−∞,p₀), [p₀,p₁), …, [p_{n−1},+∞) the
spec describes; with no known sets the single region is all of ℝ (the
code marks its left end closed, which contains the same rational points
as the spec's (−∞,+∞)). -/
theorem C3_region_construction (ks : KnownSets) :
    (criticalPoints ks).Sorted (fun a b : ℚ => a < b) ∧
    (∀ q : ℚ, q ∈ criticalPoints ks ↔ ∃ e ∈ ks, q = e.2.1 ∨ q = e.2.2) ∧
    (buildIntervals (criticalPoints ks)).length = (criticalPoints ks).length + 1 ∧
    (criticalPoints ks ≠ [] →
      buildIntervals (criticalPoints ks) = specRegions (criticalPoints ks)) ∧
    List.Forall₂ sameSet (buildIntervals (criticalPoints ks))
      (specRegions (criticalPoints ks)) := by
  refine ⟨criticalPoints_sorted_lt ks, mem_criticalPoints ks, ?_, ?_, ?_⟩
  · cases h : criticalPoints ks with
    | nil => rfl
    | cons p rest => simp [buildIntervals, buildRest_length]
  · exact buildIntervals_eq_specRegions _
  · cases h : criticalPoints ks with
    | nil =>
      refine List.Forall₂.cons ?_ List.Forall₂.nil
      intro x
      rfl
    | cons p rest =>
      rw [← h, buildIntervals_eq_specRegions _ (by rw [h]; exact List.cons_ne_nil p rest)]
      exact List.forall₂_same.mpr (fun i _ => fun x => rfl)

/-- Witness for C3 at a concrete input: one known set P = [1,2]. -/
theorem C3_region_construction_witness :
    buildIntervals (criticalPoints [("P", (1, 2))]) =
      specRegions (criticalPoints [("P", (1, 2))]) :=
  (C3_region_construction [("P", (1, 2))]).2.2.2.1 (by decide)

/-! ## Totality of the evaluator on parsed formulas (claim C10) -/

/-- Every binary node carries one of the five operator names the parser
can produce. -/
def wfAST : ASTNode → Bool
  | .membership _ _ => true
  | .not n => wfAST n
  | .binary op l r =>
    (op == "AND" || op == "OR" || op == "IMPLIES" || op == "EQUIV" || op == "XOR") &&
      wfAST l && wfAST r

theorem evaluate_isSome_of_wf (ast : ASTNode) :
    wfAST ast = true → ∀ vals, (evaluate ast vals).isSome = true := by
  induction ast with
  | membership v s => intro _ vals; rfl
  | not n ih =>
    intro h vals
    simp only [wfAST] at h
    have hn := ih h vals
    simp only [evaluate]
    cases he : evaluate n vals with
    | none => rw [he] at hn; simp at hn
    | some b => rfl
  | binary op l r ihl ihr =>
    intro h vals
    simp only [wfAST, Bool.and_eq_true, Bool.or_eq_true] at h
    obtain ⟨⟨hop, hl⟩, hr⟩ := h
    have h1 := ihl hl vals
    have h2 := ihr hr vals
    simp only [evaluate]
    cases he1 : evaluate l vals with
    | none => rw [he1] at h1; simp at h1
    | some a =>
      cases he2 : evaluate r vals with
      | none => rw [he2] at h2; simp at h2
      | some b =>
        rcases hop with ((((h | h) | h) | h) | h) <;>
          (simp only [eq_of_beq h]; rfl)

theorem parse_wf (fuel : Nat) :
    (∀ lvl ts r ts', parseL fuel lvl ts = .ok (r, ts') → wfAST r = true) ∧
    (∀ lvl left ts r ts', wfAST left = true →
      parseLoop fuel lvl left ts = .ok (r, ts') → wfAST r = true) := by
  induction fuel with
  | zero =>
    constructor
    · intro lvl ts r ts' h
      simp only [parseL] at h
      exact Except.noConfusion h
    · intro lvl left ts r ts' _ h
      simp only [parseLoop] at h
      exact Except.noConfusion h
  | succ f ih =>
    obtain ⟨ihL, ihLoop⟩ := ih
    constructor
    · intro lvl ts r ts' h
      simp only [parseL] at h
      split at h
      · -- a binary level
        cases hs : parseL f (lvl + 1) ts with
        | error e => rw [hs] at h; exact Except.noConfusion h
        | ok p =>
          obtain ⟨l0, ts1⟩ := p
          rw [hs] at h
          exact ihLoop lvl l0 ts1 r ts' (ihL (lvl + 1) ts l0 ts1 hs) h
      · split at h
        · -- the NOT level
          split at h
          · cases hs : parseL f 5 ts.tail with
            | error e => rw [hs] at h; exact Except.noConfusion h
            | ok p =>
              obtain ⟨o, ts1⟩ := p
              rw [hs] at h
              simp only [Except.ok.injEq, Prod.mk.injEq] at h
              rw [← h.1]
              simpa only [wfAST] using ihL 5 ts.tail o ts1 hs
          · exact ihL 6 ts r ts' h
        · -- the atom level
          split at h
          · -- parenthesized subexpression
            cases hs : parseL f 0 ts.tail with
            | error e => rw [hs] at h; exact Except.noConfusion h
            | ok p =>
              obtain ⟨e0, ts1⟩ := p
              rw [hs] at h
              dsimp only at h
              cases hx : expectTok .RPAREN ts1 with
              | error e => rw [hx] at h; exact Except.noConfusion h
              | ok q =>
                obtain ⟨q0, ts2⟩ := q
                rw [hx] at h
                dsimp only at h
                simp only [Except.ok.injEq, Prod.mk.injEq] at h
                rw [← h.1]
                exact ihL 0 ts.tail e0 ts1 hs
          · -- membership clause
            cases h1 : expectTok .IDENTIFIER ts with
            | error e => rw [h1] at h; exact Except.noConfusion h
            | ok p1 =>
              obtain ⟨t1, rest1⟩ := p1
              rw [h1] at h
              dsimp only at h
              cases h2 : expectTok .IN rest1 with
              | error e => rw [h2] at h; exact Except.noConfusion h
              | ok p2 =>
                obtain ⟨t2, rest2⟩ := p2
                rw [h2] at h
                dsimp only at h
                cases h3 : expectTok .IDENTIFIER rest2 with
                | error e => rw [h3] at h; exact Except.noConfusion h
                | ok p3 =>
                  obtain ⟨t3, rest3⟩ := p3
                  rw [h3] at h
                  dsimp only at h
                  simp only [Except.ok.injEq, Prod.mk.injEq] at h
                  rw [← h.1]
                  rfl
    · intro lvl left ts r ts' hw h
      simp only [parseLoop] at h
      split at h
      · cases hs : parseL f (lvl + 1) ts.tail with
        | error e => rw [hs] at h; exact Except.noConfusion h
        | ok p =>
          obtain ⟨r0, ts1⟩ := p
          rw [hs] at h
          refine ihLoop lvl (.binary (opName lvl) left r0) ts1 r ts' ?_ h
          have hp := ihL (lvl + 1) ts.tail r0 ts1 hs
          have hop : ((opName lvl == "AND") || (opName lvl == "OR") ||
              (opName lvl == "IMPLIES") || (opName lvl == "EQUIV") ||
              (opName lvl == "XOR")) = true := by
            match lvl with
            | 0 => rfl
            | 1 => rfl
            | 2 => rfl
            | 3 => rfl
            | n + 4 => rfl
          simp only [wfAST, Bool.and_eq_true, Bool.or_eq_true]
          simp only [Bool.or_eq_true] at hop
          exact ⟨⟨hop, hw⟩, hp⟩
      · simp only [Except.ok.injEq, Prod.mk.injEq] at h
        rw [← h.1]
        exact hw

theorem parse_formula_wf (s : String) (ast : ASTNode)
    (h : parse_formula s = .ok ast) : wfAST ast = true := by
  unfold parse_formula at h
  cases ht : tokenize s with
  | error e => rw [ht] at h; simp at h
  | ok toks =>
    rw [ht] at h
    dsimp only at h
    unfold parseToks at h
    cases hp : parseL (8 * (toks.length + 1)) 0 toks with
    | error e => rw [hp] at h; exact Except.noConfusion h
    | ok p =>
      obtain ⟨r0, rest⟩ := p
      rw [hp] at h
      dsimp only at h
      have hw := (parse_wf _).1 0 toks r0 rest hp
      split at h
      · simp only [Except.ok.injEq] at h
        rw [← h]
        exact hw
      · exact Except.noConfusion h

/-- Claim C10: for every AST produced by `parse_formula` and every
predicate-value mapping, the evaluator returns a boolean without raising:
the `ValueError` branch for an unknown binary operator is unreachable
because the parser only builds membership, negation and the five known
binary operators, and a lookup of an absent set name yields false rather
than an error (`lookupVal` defaults to false). -/
theorem C10_evaluate_total (s : String) (ast : ASTNode)
    (h : parse_formula s = .ok ast) (vals : List (String × Bool)) :
    (evaluate ast vals).isSome = true :=
  evaluate_isSome_of_wf ast (parse_formula_wf s ast h) vals

/-- Witness for C10 at a concrete parse and valuation. -/
theorem C10_evaluate_total_witness :
    (evaluate (.membership "x" "P") []).isSome = true :=
  C10_evaluate_total "x ∈ P" (.membership "x" "P") rfl []

/-! ## Failure reporting and length accounting (claims C6 and C8) -/

theorem solve_eq_of_analyze (cfg : SolverConfig) (cs : List ConstrainedInterval)
    (h : analyzeIntervals cfg = some cs) :
    solve cfg = some (optimizeS cfg.maximize cfg.target_set (-1, 1000000) cs).1 := by
  unfold solve solveS
  rw [h]

/-- Claim C6: if any region is classified IMPOSSIBLE, `solve()` returns
(it does not raise) a result with success = false, an empty interval
list, and the message naming the offending region; otherwise the
returned result has success = true. -/
theorem C6_impossible_region (cfg : SolverConfig) (cs : List ConstrainedInterval)
    (h : analyzeIntervals cfg = some cs) :
    ((∃ ci ∈ cs, ci.constraint = Constraint.IMPOSSIBLE) →
      ∃ ci ∈ cs, ci.constraint = Constraint.IMPOSSIBLE ∧
        solve cfg = some ⟨false, [], 0, impossibleMsg ci.interval⟩) ∧
    ((∀ ci ∈ cs, ci.constraint ≠ Constraint.IMPOSSIBLE) →
      ∃ res, solve cfg = some res ∧ res.success = true) := by
  constructor
  · rintro ⟨ci, hmem, hci⟩
    have hsome : (cs.find? (fun c => c.constraint == Constraint.IMPOSSIBLE)).isSome = true :=
      List.find?_isSome.mpr ⟨ci, hmem, by simp [hci]⟩
    obtain ⟨ci', hf⟩ := Option.isSome_iff_exists.mp hsome
    refine ⟨ci', List.mem_of_find?_eq_some hf, by simpa using List.find?_some hf, ?_⟩
    rw [solve_eq_of_analyze cfg cs h]
    unfold optimizeS
    rw [hf]
  · intro hall
    have hnone : cs.find? (fun c => c.constraint == Constraint.IMPOSSIBLE) = none :=
      List.find?_eq_none.mpr (fun ci hm => by simp [hall ci hm])
    rw [solve_eq_of_analyze cfg cs h]
    unfold optimizeS
    rw [hnone]
    dsimp only
    split
    · exact ⟨_, rfl, rfl⟩
    · exact ⟨_, rfl, rfl⟩

/-- A formula that is contradictory in every region regardless of the
target value: `x ∈ A ∧ ¬x ∈ A`, with no known sets. -/
def impCfg : SolverConfig :=
  ⟨.binary "AND" (.membership "x" "A") (.not (.membership "x" "A")), [], "A", true, true⟩

/-- Witness for C6 at a concrete unsatisfiable input. -/
theorem C6_impossible_region_witness :
    solve impCfg = some ⟨false, [], 0, impossibleMsg ⟨.ninf, .pinf, true, false⟩⟩ := by
  have h := (C6_impossible_region impCfg
      [⟨⟨.ninf, .pinf, true, false⟩, .IMPOSSIBLE⟩] (by decide)).1
    ⟨⟨⟨.ninf, .pinf, true, false⟩, .IMPOSSIBLE⟩, by decide, rfl⟩
  obtain ⟨ci, hmem, hc, hs⟩ := h
  rw [List.mem_singleton] at hmem
  subst hmem
  exact hs

/-- Claim C8: in a successful solve result, `total_length` is the sum of
(right − left) over the merged intervals with no infinite endpoint, and a
result containing an infinite endpoint is flagged (`is_infinite`) and its
message carries the unboundedness annotation instead of a finite length
suffix. -/
theorem C8_length_accounting (cfg : SolverConfig) (res : SolverResult)
    (h : solve cfg = some res) (hs : res.success = true) :
    res.total_length =
      ((res.intervals.filter (fun i => !i.left.isInf && !i.right.isInf)).map
        Interval.lengthQ).sum ∧
    (res.intervals.any (fun i => i.left.isInf || i.right.isInf) = true →
      res.isInfinite = true ∧
      res.message =
        (formatBody cfg.target_set res.intervals).1 ++ " (бесконечное решение)") := by
  unfold solve solveS at h
  cases ha : analyzeIntervals cfg with
  | none => rw [ha] at h; exact Option.noConfusion h
  | some cs =>
    rw [ha] at h
    dsimp only at h
    simp only [Option.some.injEq] at h
    unfold optimizeS at h
    cases hf : cs.find? (fun ci => ci.constraint == Constraint.IMPOSSIBLE) with
    | some ci =>
      rw [hf] at h
      rw [← h] at hs
      exact absurd hs (by simp)
    | none =>
      rw [hf] at h
      dsimp only at h
      split at h
      · -- empty merged result
        rw [← h]
        exact ⟨rfl, fun habs => absurd habs (by simp)⟩
      · -- non-empty merged result
        rename_i hne
        rw [← h]
        refine ⟨rfl, fun hinf => ⟨hinf, ?_⟩⟩
        dsimp only [SolverResult.isInfinite]
        unfold formatResultS
        rw [if_neg (by simpa [List.isEmpty_iff] using hne)]
        rw [if_neg (by rw [hinf]; simp)]

/-- A configuration whose maximal solution is all of ℝ, hence an
infinite-extent result. -/
def infCfg8 : SolverConfig := ⟨.membership "x" "A", [("P", (0, 1))], "A", true, true⟩

/-- The result the solver returns on `infCfg8`. -/
def infRes : SolverResult :=
  ⟨true, [⟨.ninf, .pinf, false, false⟩], 0,
    "A = (-∞, +∞)  max: -1 min: 1000000 (бесконечное решение)"⟩

/-- Witness for C8 at a concrete infinite-extent result. -/
theorem C8_length_accounting_witness :
    infRes.total_length =
      ((infRes.intervals.filter (fun i => !i.left.isInf && !i.right.isInf)).map
        Interval.lengthQ).sum ∧
    (infRes.intervals.any (fun i => i.left.isInf || i.right.isInf) = true →
      infRes.isInfinite = true ∧
      infRes.message =
        (formatBody infCfg8.target_set infRes.intervals).1 ++ " (бесконечное решение)") :=
  C8_length_accounting infCfg8 infRes (by decide) rfl

/-! ## Merging preserves the point set (infrastructure for claim C7)

Any list of regions the optimizer selects satisfies `goodRun`: every
interval is nonempty with an open right end, successive intervals are
ordered and disjoint, and every interval after the first is left-closed.
On such lists `_merge_intervals` neither adds nor loses points. -/

/-- Invariant of region selections fed to `_merge_intervals`. -/
def goodRun (l : List Interval) : Prop :=
  (∀ i ∈ l, i.right_closed = false ∧ EF.ltB i.left i.right = true) ∧
  l.Pairwise (fun a b => EF.leB a.right b.left = true ∧ b.left_closed = true)

theorem goodRun_sublist {l l' : List Interval} (hsub : l'.Sublist l)
    (h : goodRun l) : goodRun l' :=
  ⟨fun i hi => h.1 i (hsub.subset hi), List.Pairwise.sublist hsub h.2⟩

theorem goodRun_cons {a : Interval} {l : List Interval} (h : goodRun (a :: l)) :
    goodRun l :=
  ⟨fun i hi => h.1 i (List.mem_cons_of_mem a hi), (List.pairwise_cons.mp h.2).2⟩

theorem goodRun_sorted (l : List Interval) (h : goodRun l) :
    l.Sorted (fun a b : Interval => EF.leB a.left b.left = true) := by
  refine List.Pairwise.imp_of_mem ?_ h.2
  intro a b ha _ hr
  exact EF.leB_of_ltB (EF.ltB_of_ltB_of_leB (h.1 a ha).2 hr.1)

/-- Under the `goodRun` conditions the coalesced interval of two touching
regions contains exactly the points of the two regions. -/
theorem containsQ_merge2 (a cur : Interval) (x : ℚ)
    (hrc : a.right_closed = false) (hlt : EF.ltB a.left a.right = true)
    (hclt : EF.ltB cur.left cur.right = true)
    (heq : cur.left = a.right) (hclc : cur.left_closed = true) :
    containsQ (merge2 a cur) x = (containsQ a x || containsQ cur x) := by
  have hac : EF.ltB a.right cur.right = true := by rw [← heq]; exact hclt
  have hm2 : merge2 a cur = ⟨a.left, cur.right, a.left_closed, cur.right_closed⟩ := by
    unfold merge2 EF.maxE
    rw [if_pos hac, if_pos hac]
  by_cases hx : EF.ltB (.fin x) a.right = true
  · have h1 : EF.leB a.right (.fin x) = false := by
      have := hx
      unfold EF.ltB at this
      simpa using this
    have h2 : EF.ltB (.fin x) cur.right = true := EF.ltB_trans hx hac
    have h3 : EF.leB (.fin x) cur.right = true := EF.leB_of_ltB h2
    simp [containsQ, hm2, hclc, heq, hrc, hx, h1, h2, h3]
  · have hxf : EF.ltB (.fin x) a.right = false := by
      cases hv : EF.ltB (.fin x) a.right with
      | false => rfl
      | true => exact absurd hv hx
    have hge : EF.leB a.right (.fin x) = true := by
      have := hxf
      unfold EF.ltB at this
      simpa using this
    have hlx : EF.ltB a.left (.fin x) = true := EF.ltB_of_ltB_of_leB hlt hge
    have hlx2 : EF.leB a.left (.fin x) = true := EF.leB_of_ltB hlx
    simp [containsQ, hm2, hclc, heq, hrc, hxf, hge, hlx, hlx2]

theorem goodRun_merge2_cons {a cur : Interval} {rest : List Interval}
    (h : goodRun (a :: cur :: rest)) (heq : cur.left = a.right) :
    goodRun (merge2 a cur :: rest) := by
  obtain ⟨helem, hpair⟩ := h
  have ha := helem a (List.mem_cons_self a _)
  have hcur := helem cur (List.mem_cons_of_mem a (List.mem_cons_self cur rest))
  have hac : EF.ltB a.right cur.right = true := by rw [← heq]; exact hcur.2
  have hmax : EF.maxE a.right cur.right = cur.right := by
    unfold EF.maxE
    rw [if_pos hac]
  have hpc := List.pairwise_cons.mp hpair
  have hpc2 := List.pairwise_cons.mp hpc.2
  constructor
  · intro i hi
    rcases List.mem_cons.mp hi with hh | ht
    · subst hh
      unfold merge2
      rw [if_pos hac, hmax]
      exact ⟨hcur.1, EF.ltB_trans ha.2 hac⟩
    · exact helem i (List.mem_cons_of_mem a (List.mem_cons_of_mem cur ht))
  · refine List.pairwise_cons.mpr ⟨?_, hpc2.2⟩
    intro b hb
    have hcb := hpc2.1 b hb
    unfold merge2
    rw [if_pos hac, hmax]
    exact hcb

theorem mem_mergeAux (x : ℚ) (l : List Interval) :
    ∀ a : Interval, goodRun (a :: l) →
      memIntervals x (mergeAux a l) = memIntervals x (a :: l) := by
  induction l with
  | nil => intro a _; rfl
  | cons cur rest ih =>
    intro a h
    have hpc := List.pairwise_cons.mp h.2
    have hfacts := hpc.1 cur (List.mem_cons_self cur rest)
    unfold mergeAux
    split
    · rename_i hle
      have heq : cur.left = a.right := EF.leB_antisymm hle hfacts.1
      have hgood2 := goodRun_merge2_cons h heq
      rw [ih (merge2 a cur) hgood2]
      have ha := h.1 a (List.mem_cons_self a _)
      have hcur := h.1 cur (List.mem_cons_of_mem a (List.mem_cons_self cur rest))
      have hm := containsQ_merge2 a cur x ha.1 ha.2 hcur.2 heq hfacts.2
      simp only [memIntervals, List.any_cons, hm]
      rw [Bool.or_assoc]
    · rw [memIntervals, List.any_cons]
      rw [show (mergeAux cur rest).any (fun i => containsQ i x) =
            memIntervals x (mergeAux cur rest) from rfl]
      rw [ih cur (goodRun_cons h)]
      rfl

theorem mem_mergeIntervals (l : List Interval) (h : goodRun l) (x : ℚ) :
    memIntervals x (mergeIntervals l) = memIntervals x l := by
  unfold mergeIntervals
  rw [List.Sorted.insertionSort_eq (goodRun_sorted l h)]
  cases l with
  | nil => rfl
  | cons a t => exact mem_mergeAux x t a h

/-! ## The region list satisfies the invariant -/

theorem buildRest_goodRun (p : ℚ) (l : List ℚ)
    (hc : List.Chain (fun a b : ℚ => a < b) p l) :
    goodRun (buildRest p l) ∧
    (∀ i ∈ buildRest p l, i.left_closed = true ∧ EF.leB (.fin p) i.left = true) := by
  induction l generalizing p with
  | nil =>
    refine ⟨⟨?_, ?_⟩, ?_⟩
    · intro i hi
      simp only [buildRest, List.mem_singleton] at hi
      subst hi
      exact ⟨rfl, rfl⟩
    · simp only [buildRest]
      exact List.pairwise_singleton _ _
    · intro i hi
      simp only [buildRest, List.mem_singleton] at hi
      subst hi
      exact ⟨rfl, EF.leB_refl _⟩
  | cons q rest ih =>
    cases hc with
    | cons hpq hcq =>
    obtain ⟨⟨hel, hpw⟩, hlc⟩ := ih q hcq
    refine ⟨⟨?_, ?_⟩, ?_⟩
    · intro i hi
      rcases List.mem_cons.mp hi with hh | ht
      · subst hh
        refine ⟨rfl, ?_⟩
        simp [EF.ltB, EF.leB, not_le.mpr hpq]
      · exact hel i ht
    · refine List.pairwise_cons.mpr ⟨?_, hpw⟩
      intro b hb
      have := hlc b hb
      exact ⟨by simpa [EF.leB] using this.2, this.1⟩
    · intro i hi
      rcases List.mem_cons.mp hi with hh | ht
      · subst hh
        exact ⟨rfl, EF.leB_refl _⟩
      · have := hlc i ht
        refine ⟨this.1, EF.leB_trans ?_ this.2⟩
        simp [EF.leB, le_of_lt hpq]

theorem buildIntervals_goodRun (pts : List ℚ)
    (h : pts.Sorted (fun a b : ℚ => a < b)) :
    goodRun (buildIntervals pts) := by
  cases pts with
  | nil =>
    refine ⟨?_, by simp only [buildIntervals]; exact List.pairwise_singleton _ _⟩
    intro i hi
    simp only [buildIntervals, List.mem_singleton] at hi
    subst hi
    exact ⟨rfl, rfl⟩
  | cons p rest =>
    have hc : List.Chain (fun a b : ℚ => a < b) p rest := by
      have := List.chain'_iff_pairwise.mpr h
      exact this
    obtain ⟨⟨hel, hpw⟩, hlc⟩ := buildRest_goodRun p rest hc
    refine ⟨?_, ?_⟩
    · intro i hi
      rcases List.mem_cons.mp hi with hh | ht
      · subst hh
        exact ⟨rfl, rfl⟩
      · exact hel i ht
    · refine List.pairwise_cons.mpr ⟨?_, hpw⟩
      intro b hb
      have := hlc b hb
      exact ⟨this.2, this.1⟩

/-! ## Minimize versus maximize (claim C7) -/

theorem mapM_tag_map (g : Interval → Option Constraint) :
    ∀ (l : List Interval) (cs : List ConstrainedInterval),
      l.mapM (fun i => (g i).map (fun c => (⟨i, c⟩ : ConstrainedInterval))) = some cs →
      cs.map (fun ci => ci.interval) = l := by
  intro l
  induction l with
  | nil =>
    intro cs h
    rw [List.mapM_nil] at h
    simp only [pure, Option.some.injEq] at h
    rw [← h]
    rfl
  | cons i rest ih =>
    intro cs h
    rw [List.mapM_cons] at h
    cases hg : (g i).map (fun c => (⟨i, c⟩ : ConstrainedInterval)) with
    | none => rw [hg] at h; simp at h
    | some ci =>
      rw [hg] at h
      cases hm : rest.mapM (fun i => (g i).map fun c => (⟨i, c⟩ : ConstrainedInterval)) with
      | none => rw [hm] at h; simp at h
      | some t =>
        rw [hm] at h
        simp at h
        subst h
        rw [List.map_cons, ih t hm]
        have hi : ci.interval = i := by
          cases hgi : g i with
          | none => rw [hgi] at hg; simp at hg
          | some c =>
            rw [hgi] at hg
            simp at hg
            rw [← hg]
        rw [hi]

theorem analyze_map_interval (cfg : SolverConfig) (cs : List ConstrainedInterval)
    (h : analyzeIntervals cfg = some cs) :
    cs.map (fun ci => ci.interval) = buildIntervals (criticalPoints cfg.known_sets) := by
  unfold analyzeIntervals at h
  exact mapM_tag_map _ _ cs h

theorem shouldInclude_mono (c : Constraint) (h : shouldInclude false c = true) :
    shouldInclude true c = true := by
  cases c <;> simp_all [shouldInclude]

theorem memIntervals_of_sublist {l l' : List Interval} (x : ℚ) (hsub : l.Sublist l')
    (h : memIntervals x l = true) : memIntervals x l' = true := by
  rw [memIntervals, List.any_eq_true] at h ⊢
  obtain ⟨i, hi, hc⟩ := h
  exact ⟨i, hsub.subset hi, hc⟩

/-- Claim C7: on the same formula, known sets and required truth value,
whenever both solves succeed the minimized interval set is a subset (as a
set of points) of the maximized interval set; and the optimizer includes
a region exactly when its tag is MUST_INCLUDE, or its tag is FREE and the
objective is maximization. -/
theorem C7_minimize_subset_maximize (ast : ASTNode) (ks : KnownSets) (target : String)
    (ftrue : Bool) (rmin rmax : SolverResult)
    (hmin : solve ⟨ast, ks, target, false, ftrue⟩ = some rmin)
    (hmax : solve ⟨ast, ks, target, true, ftrue⟩ = some rmax)
    (hs1 : rmin.success = true) (hs2 : rmax.success = true) :
    (∀ x : ℚ, memIntervals x rmin.intervals = true →
      memIntervals x rmax.intervals = true) ∧
    (∀ (mx : Bool) (c : Constraint),
      shouldInclude mx c = true ↔
        (c = Constraint.MUST_INCLUDE ∨ (c = Constraint.FREE ∧ mx = true))) := by
  refine ⟨?_, fun mx c => by cases c <;> cases mx <;> simp [shouldInclude]⟩
  intro x hx
  unfold solve solveS at hmin hmax
  cases ha : analyzeIntervals ⟨ast, ks, target, false, ftrue⟩ with
  | none =>
    rw [ha] at hmin
    exact Option.noConfusion hmin
  | some cs =>
    have ha2 : analyzeIntervals ⟨ast, ks, target, true, ftrue⟩ = some cs := ha
    rw [ha] at hmin
    rw [ha2] at hmax
    dsimp only at hmin hmax
    simp only [Option.some.injEq] at hmin hmax
    have hmap := analyze_map_interval ⟨ast, ks, target, false, ftrue⟩ cs ha
    have hgood : goodRun (cs.map (fun ci => ci.interval)) := by
      rw [hmap]
      exact buildIntervals_goodRun _ (criticalPoints_sorted_lt ks)
    have hsubMinMax :
        ((cs.filter (fun ci => shouldInclude false ci.constraint)).map
          (fun ci => ci.interval)).Sublist
        ((cs.filter (fun ci => shouldInclude true ci.constraint)).map
          (fun ci => ci.interval)) :=
      List.Sublist.map _
        (List.monotone_filter_right cs (fun ci h => shouldInclude_mono _ h))
    have hsubMax :
        ((cs.filter (fun ci => shouldInclude true ci.constraint)).map
          (fun ci => ci.interval)).Sublist (cs.map (fun ci => ci.interval)) :=
      List.Sublist.map _ (List.filter_sublist cs)
    have hgoodMax := goodRun_sublist hsubMax hgood
    have hgoodMin := goodRun_sublist (hsubMinMax.trans hsubMax) hgood
    unfold optimizeS at hmin hmax
    cases hf : cs.find? (fun ci => ci.constraint == Constraint.IMPOSSIBLE) with
    | some ci =>
      rw [hf] at hmin
      dsimp only at hmin
      rw [← hmin] at hs1
      exact absurd hs1 (by simp)
    | none =>
      rw [hf] at hmin hmax
      dsimp only at hmin hmax
      by_cases hEmin : (mergeIntervals
          ((cs.filter (fun ci => shouldInclude false ci.constraint)).map
            (fun ci => ci.interval))).isEmpty
      · rw [if_pos hEmin] at hmin
        rw [← hmin] at hx
        simp [memIntervals] at hx
      · rw [if_neg hEmin] at hmin
        rw [← hmin] at hx
        dsimp only at hx
        rw [mem_mergeIntervals _ hgoodMin x] at hx
        have hxMax := memIntervals_of_sublist x hsubMinMax hx
        by_cases hEmax : (mergeIntervals
            ((cs.filter (fun ci => shouldInclude true ci.constraint)).map
              (fun ci => ci.interval))).isEmpty
        · exfalso
          have hq := mem_mergeIntervals _ hgoodMax x
          rw [List.isEmpty_iff.mp hEmax] at hq
          rw [hxMax] at hq
          simp [memIntervals] at hq
        · rw [if_neg hEmax] at hmax
          rw [← hmax]
          dsimp only
          rw [mem_mergeIntervals _ hgoodMax x]
          exact hxMax

/-- Witness for C7 at a concrete input where both solves succeed with
the same all-of-ℝ result. -/
theorem C7_minimize_subset_maximize_witness :
    memIntervals 5 infRes.intervals = true ∧
    (shouldInclude true Constraint.FREE = true ↔
      (Constraint.FREE = Constraint.MUST_INCLUDE ∨
        (Constraint.FREE = Constraint.FREE ∧ true = true))) := by
  have h := C7_minimize_subset_maximize (.membership "x" "A") [("P", (0, 1))] "A" true
    infRes infRes (by decide) (by decide) rfl rfl
  exact ⟨h.1 5 (by decide), h.2 true Constraint.FREE⟩

end OOP
